import Mathlib

/-!
# Verification of the mcp-apple mail bridge

A shallow embedding, in Lean 4, of the algorithmic core of the mcp-apple
repository: the JXA string escaping and bridge result decoding
(`src/lib/jxa-executor.ts`), the search orchestrators
(`src/lib/mail-search.ts`), the bulk operations
(`src/lib/mail-operations.ts`), the mailbox hierarchy builder
(`src/lib/mail-accounts.ts`) and the message retrieval module.

Modelling conventions:
* JavaScript strings are Lean `String`s (or `List Char`); `toLowerCase`,
  `toUpperCase` and the default lexicographic sort are modelled over
  code points, which agrees with JavaScript's UTF-16 behaviour on the
  Basic Multilingual Plane.
* Timestamps (`dateReceived`, `dateSent`) are naturals; the code compares
  ISO-8601 strings through `Date`, and ISO-8601 order is chronological
  order, so a natural-number timestamp is a faithful abstraction.
* A JavaScript value that may be `null` where the code guards with
  `x || ''` is modelled as a `String`, with `""` playing the role of
  `null`; both sides of every use in the code treat them identically.
* The Mail application state that a generated JXA program iterates is an
  explicit `MailState` value; the generated programs are deterministic
  single-pass loops over it, embedded as structural recursions below.
-/

/-! ## Characters that are awkward to write literally -/

/-- The double-quote character. -/
def qChar : Char := Char.ofNat 34

/-- The backslash character. -/
def bsChar : Char := Char.ofNat 92

/-- The backtick character. -/
def btChar : Char := Char.ofNat 96

/-! ## String helpers shared by the generated JXA programs -/

/-- JavaScript `toLowerCase`, modelled per code point. -/
def strLower (s : String) : String := ⟨s.data.map Char.toLower⟩

/-- JavaScript `toUpperCase`, modelled per code point. -/
def strUpper (s : String) : String := ⟨s.data.map Char.toUpper⟩

/-- Does `needle` occur as a contiguous run starting at the head of `hay`? -/
def listPrefixOf : List Char → List Char → Bool
  | [], _ => true
  | _ :: _, [] => false
  | c :: cs, d :: ds => c = d && listPrefixOf cs ds

/-- JavaScript `String.prototype.includes`: substring occurrence. -/
def listContains (hay needle : List Char) : Bool :=
  match hay with
  | [] => listPrefixOf needle []
  | _ :: rest => listPrefixOf needle hay || listContains rest needle

/-- `hay.includes(needle)` on Lean strings. -/
def strContains (hay needle : String) : Bool := listContains hay.data needle.data

/-- JavaScript `x || dflt` for a possibly-null/empty string `x`. -/
def orDefault (s dflt : String) : String := if s = "" then dflt else s

/-! ## `escapeJXAString` (src/lib/jxa-executor.ts, lines 79-81)

The source is
`str.replace(/"/g, '\\"').replace(/`/g, '\\`')`:
first every double quote is replaced by backslash-quote, then every
backtick by backslash-backtick. -/

/-- First replace of `escapeJXAString`: every double quote becomes
backslash-quote. -/
def replaceQuotes (s : List Char) : List Char :=
  s.flatMap fun c => if c = qChar then [bsChar, qChar] else [c]

/-- Second replace of `escapeJXAString`: every backtick becomes
backslash-backtick. -/
def replaceBackticks (s : List Char) : List Char :=
  s.flatMap fun c => if c = btChar then [bsChar, btChar] else [c]

/-- `escapeJXAString` from src/lib/jxa-executor.ts: the two global
replaces in sequence. -/
def escapeJXAString (s : List Char) : List Char :=
  replaceBackticks (replaceQuotes s)

/-! ## The host's double-quoted string literal evaluation

Modelled from the spec: §4.1's contract speaks of escaping "for the
host's string-literal syntax (quote and escape-sequence characters)".
The host is the external `osascript` ECMAScript interpreter, which is
not part of this repository, so its evaluation of a double-quoted
string literal is modelled here from the ECMAScript rules the spec
appeals to: a literal is a double quote, a body, and a closing double
quote; inside the body a backslash starts an escape sequence
(single-character escapes, `\xHH`, `\uHHHH`, line continuations, and
any other escaped character standing for itself), an unescaped double
quote closes the literal, and a raw line terminator is a syntax error.
Legacy octal escapes beyond `\0` and the `\u{...}` form are left out;
no claim touches them. `none` is a host-side syntax error. -/

/-- Hexadecimal digit value, if any. -/
def hexVal (c : Char) : Option Nat :=
  if '0' ≤ c ∧ c ≤ '9' then some (c.toNat - 48)
  else if 'a' ≤ c ∧ c ≤ 'f' then some (c.toNat - 87)
  else if 'A' ≤ c ∧ c ≤ 'F' then some (c.toNat - 55)
  else none

/-- Evaluate the body of a double-quoted ECMAScript literal; the closing
quote must be the final character (the literal is the whole program
fragment interpolation produced). Fuel-driven so that the definition is
structurally recursive and kernel-evaluable; `jsEvalDQ` supplies enough
fuel for any input. -/
def evalDQBody : Nat → List Char → Option (List Char)
  | 0, _ => none
  | _ + 1, [] => none
  | fuel + 1, c :: rest =>
    if c = qChar then (if rest.isEmpty then some [] else none)
    else if c = bsChar then
      match rest with
      | [] => none
      | e :: rest2 =>
        if e = 'n' then (evalDQBody fuel rest2).map (fun l => Char.ofNat 10 :: l)
        else if e = 't' then (evalDQBody fuel rest2).map (fun l => Char.ofNat 9 :: l)
        else if e = 'r' then (evalDQBody fuel rest2).map (fun l => Char.ofNat 13 :: l)
        else if e = 'b' then (evalDQBody fuel rest2).map (fun l => Char.ofNat 8 :: l)
        else if e = 'f' then (evalDQBody fuel rest2).map (fun l => Char.ofNat 12 :: l)
        else if e = 'v' then (evalDQBody fuel rest2).map (fun l => Char.ofNat 11 :: l)
        else if e = '0' then (evalDQBody fuel rest2).map (fun l => Char.ofNat 0 :: l)
        else if e = 'x' then
          match rest2 with
          | h1 :: h2 :: rest3 =>
            match hexVal h1, hexVal h2 with
            | some a, some b =>
              (evalDQBody fuel rest3).map (fun l => Char.ofNat (16 * a + b) :: l)
            | _, _ => none
          | _ => none
        else if e = 'u' then
          match rest2 with
          | h1 :: h2 :: h3 :: h4 :: rest3 =>
            match hexVal h1, hexVal h2, hexVal h3, hexVal h4 with
            | some a, some b, some c, some d =>
              (evalDQBody fuel rest3).map
                (fun l => Char.ofNat (4096 * a + 256 * b + 16 * c + d) :: l)
            | _, _, _, _ => none
          | _ => none
        else if e = Char.ofNat 10 then evalDQBody fuel rest2
        else if e = Char.ofNat 13 then
          match rest2 with
          | lf :: rest3 =>
            if lf = Char.ofNat 10 then evalDQBody fuel rest3 else evalDQBody fuel rest2
          | [] => evalDQBody fuel rest2
        else (evalDQBody fuel rest2).map (fun l => e :: l)
    else if c = Char.ofNat 10 ∨ c = Char.ofNat 13 then none
    else (evalDQBody fuel rest).map (fun l => c :: l)

/-- Evaluate a complete double-quoted ECMAScript string literal. -/
def jsEvalDQ (lit : List Char) : Option (List Char) :=
  match lit with
  | [] => none
  | c :: rest => if c = qChar then evalDQBody (rest.length + 1) rest else none

/-- The double-quoted literal the generators build around an escaped
string: a quote, the escaped text, a quote. -/
def quotedLiteral (s : List Char) : List Char :=
  (qChar :: escapeJXAString s) ++ [qChar]

/-- C4. The claim asserts that for every input string the escaping makes
the quoted literal evaluate back to the original string.  This theorem
evaluates the code at the failing input: the two-character string
backslash-`a` is left unchanged by `escapeJXAString` (only quotes and
backticks are escaped), so the host reads `\a` as an escape sequence and
the literal evaluates to `a`, not to the original string.  The round
trip therefore fails: escape-sequence characters (the backslash) are not
escaped, contradicting the spec's §4.1 contract. -/
theorem escapeJXAString_backslash_not_roundtripped :
    escapeJXAString [bsChar, 'a'] = [bsChar, 'a'] ∧
    jsEvalDQ (quotedLiteral [bsChar, 'a']) = some ['a'] ∧
    ['a'] ≠ [bsChar, 'a'] := by
  refine ⟨rfl, rfl, ?_⟩
  decide

/-! ## Bridge executor (src/lib/jxa-executor.ts, `runJXA`)

`runJXA` writes the wrapped program to a temp file inside a `try` block,
runs `osascript` with a timeout, `JSON.parse`s stdout, throws on a
payload whose `error` field is truthy, and unlinks the temp file in a
`finally` block that swallows unlink errors.  The file system and the
child process are external; they enter the model as explicit outcome
parameters (`writeOk`, `ExecResult`), and `JSON.parse` of stdout as an
`Option JsonVal` (`none` = unparsable stdout). -/

/-- A JSON value, the shape of a decoded bridge payload. -/
inductive JsonVal where
  | jnull : JsonVal
  | jbool : Bool → JsonVal
  | jnum : Int → JsonVal
  | jstr : String → JsonVal
  | jarr : List JsonVal → JsonVal
  | jobj : List (String × JsonVal) → JsonVal

/-- Field lookup on a JSON object; `none` plays JavaScript `undefined`
(also for access on a non-object). -/
def jsonField (v : JsonVal) (k : String) : Option JsonVal :=
  match v with
  | .jobj fields => (fields.find? (fun f => f.1 == k)).map Prod.snd
  | _ => none

/-- JavaScript truthiness of a JSON value. -/
def jsTruthy : JsonVal → Bool
  | .jnull => false
  | .jbool b => b
  | .jnum n => decide (n ≠ 0)
  | .jstr s => decide (s ≠ "")
  | .jarr _ => true
  | .jobj _ => true

/-- JavaScript string coercion of a JSON value, used when the `message`
field reaches the `Error` constructor.  The wrapper always sends a
string here; composite values are displayed simplified (no claim
touches them). -/
def jsToDisplayString : JsonVal → String
  | .jnull => "null"
  | .jbool b => if b then "true" else "false"
  | .jnum n => toString n
  | .jstr s => s
  | .jarr _ => ""
  | .jobj _ => "[object Object]"

/-- `parsed?.error` of `runJXA` line 64: truthy when the decoded value
has a truthy `error` field. -/
def errorFieldTruthy (v : JsonVal) : Bool :=
  match jsonField v "error" with
  | some e => jsTruthy e
  | none => false

/-- `parsed.message || 'JXA execution failed'` of `runJXA` line 65. -/
def hostMessageOf (v : JsonVal) : String :=
  match jsonField v "message" with
  | some m => if jsTruthy m then jsToDisplayString m else "JXA execution failed"
  | none => "JXA execution failed"

/-- The typed outcome of one bridge call, §7's taxonomy. -/
inductive BridgeOutcome where
  | value : JsonVal → BridgeOutcome
  | hostError : String → BridgeOutcome
  | protocolError : BridgeOutcome
  | timeoutError : BridgeOutcome
  | execError : BridgeOutcome
  | writeError : BridgeOutcome

/-- Lines 62-68 of `runJXA`: decode stdout.  `JSON.parse` failing is the
`none` case (the SyntaxError propagates — §7's `ProtocolError`);
a truthy `error` field raises with the message (`HostExecutionError`);
anything else is returned unchanged. -/
def decodeStage (parsed : Option JsonVal) : BridgeOutcome :=
  match parsed with
  | none => .protocolError
  | some v => if errorFieldTruthy v then .hostError (hostMessageOf v) else .value v

/-- How the `osascript` child process ended: normal completion with a
(parsed-or-not) stdout, deadline expiry (`execAsync` kills the process
and rejects — `TimeoutError`), or a non-timeout execution failure. -/
inductive ExecResult where
  | completed : Option JsonVal → ExecResult
  | timedOut : ExecResult
  | failed : ExecResult

/-- The error-sentinel payload the wrapper serializes on an in-host
exception (lines 39-43 of the wrapped code). -/
def errSentinel (message stack : String) : JsonVal :=
  .jobj [("error", .jbool true), ("message", .jstr message), ("stack", .jstr stack)]

/-- The `finally` clause (lines 69-73): `fs.unlink` of the temp file,
errors swallowed.  Acting on the temp-file-exists flag. -/
def finallyUnlink (r : BridgeOutcome × Bool) : BridgeOutcome × Bool := (r.1, false)

/-- `runJXA` lines 48-74 as explicit control flow over the external
outcomes: the pair is (call outcome, does the temp file still exist).
Every branch of the `try` body is routed through `finallyUnlink`. -/
def runJXA (writeOk : Bool) (er : ExecResult) : BridgeOutcome × Bool :=
  finallyUnlink <|
    if writeOk = false then (.writeError, false)
    else
      match er with
      | .timedOut => (.timeoutError, true)
      | .failed => (.execError, true)
      | .completed parsed => (decodeStage parsed, true)

/-- C7 (amended). Unparsable stdout raises the protocol error; the error
sentinel raises a host error carrying the host-supplied message verbatim
whenever that message is truthy (non-empty); a payload without a truthy
`error` field is returned unchanged. -/
theorem decodeStage_branches (v : JsonVal) (message stack : String)
    (hmsg : message ≠ "") :
    decodeStage none = .protocolError ∧
    decodeStage (some (errSentinel message stack)) = .hostError message ∧
    (errorFieldTruthy v = false → decodeStage (some v) = .value v) := by
  refine ⟨rfl, ?_, ?_⟩
  · simp [decodeStage, errSentinel, errorFieldTruthy, hostMessageOf, jsonField,
      jsTruthy, jsToDisplayString, List.find?, hmsg]
  · intro h
    simp [decodeStage, h]

/-- Witness for `decodeStage_branches` at a concrete sentinel and a
concrete non-error payload. -/
theorem decodeStage_branches_witness :
    decodeStage none = .protocolError ∧
    decodeStage (some (errSentinel "Account not found" "st")) =
      .hostError "Account not found" ∧
    (errorFieldTruthy (.jstr "ok") = false →
      decodeStage (some (.jstr "ok")) = .value (.jstr "ok")) :=
  decodeStage_branches (.jstr "ok") "Account not found" "st" (by decide)

/-- C7 counterexample. The claim says the sentinel's message is passed
through verbatim; on the sentinel whose `message` is the empty string
the code substitutes the default `'JXA execution failed'` (line 65's
`parsed.message || 'JXA execution failed'`), so the raised message is
not the host-supplied one. -/
theorem decodeStage_empty_message_not_verbatim :
    decodeStage (some (errSentinel "" "")) = .hostError "JXA execution failed" ∧
    "JXA execution failed" ≠ "" := by
  constructor
  · simp [decodeStage, errSentinel, errorFieldTruthy, hostMessageOf, jsonField,
      jsTruthy, List.find?]
  · decide

/-- C8. On every exit path — successful decode, unparsable stdout, host
error sentinel, non-timeout execution failure, timeout, even a failed
temp-file write — the `finally` clause removes the temporary file; and
the timeout path yields the timeout error. -/
theorem runJXA_temp_removed (writeOk : Bool) (er : ExecResult) :
    (runJXA writeOk er).2 = false ∧
    (runJXA true .timedOut).1 = .timeoutError ∧
    (runJXA true (.completed none)).1 = .protocolError := by
  refine ⟨rfl, rfl, rfl⟩

/-! ## The Mail application object model

The state a generated program iterates: accounts with ordered mailbox
lists, mailboxes with ordered message lists (index order, the newest
message at the end — the programs scan `j = length-1` downwards for
"newest first"), and the application-global `Mail.mailboxes()` list. -/

/-- One message as the generated programs read it. -/
structure Message where
  numId : Nat
  msgId : String
  subject : String
  sender : String
  recipients : List String
  dateSent : Nat
  dateReceived : Nat
  content : String
  isRead : Bool
  isFlagged : Bool
deriving Repr, DecidableEq

/-- One mailbox: `parent` is what `getParentName` extracts from the
container (none when the container is not a mailbox). -/
structure MailboxRec where
  name : String
  parent : Option String
  messages : List Message
deriving Repr, DecidableEq

/-- One account. -/
structure Account where
  name : String
  mailboxes : List MailboxRec
deriving Repr, DecidableEq

/-- The whole Mail application state: `Mail.accounts()` and the global
`Mail.mailboxes()` list. -/
structure MailState where
  accounts : List Account
  globalMailboxes : List MailboxRec
deriving Repr, DecidableEq

/-- The email object the search programs push (mail-search.ts): `id` is
`String(msg.id())`. -/
structure EmailOut where
  id : String
  messageId : String
  subject : String
  sender : String
  recipients : List String
  dateSent : Nat
  dateReceived : Nat
  content : String
  isRead : Bool
  isFlagged : Bool
  mailbox : String
  accountName : String
deriving Repr, DecidableEq

/-! ## Insertion sort, modelling `Array.prototype.sort` -/

/-- Insert into a le-sorted list. -/
def insSorted (le : α → α → Bool) (x : α) : List α → List α
  | [] => [x]
  | y :: r => if le x y then x :: y :: r else y :: insSorted le x r

/-- Insertion sort by a boolean comparison; models the JavaScript
`sort` calls (the claims only use that the output is ordered and a
permutation, which any comparison sort gives). -/
def isort (le : α → α → Bool) : List α → List α
  | [] => []
  | x :: r => insSorted le x (isort le r)

theorem mem_insSorted (le : α → α → Bool) (x a : α) (l : List α) :
    a ∈ insSorted le x l ↔ a = x ∨ a ∈ l := by
  induction l with
  | nil => simp [insSorted]
  | cons y r ih =>
    by_cases h : le x y = true
    · simp [insSorted, h]
    · simp only [insSorted, if_neg h, List.mem_cons, ih]
      tauto

theorem mem_isort (le : α → α → Bool) (a : α) (l : List α) :
    a ∈ isort le l ↔ a ∈ l := by
  induction l with
  | nil => simp [isort]
  | cons x r ih => simp [isort, mem_insSorted, ih]

theorem length_insSorted (le : α → α → Bool) (x : α) (l : List α) :
    (insSorted le x l).length = l.length + 1 := by
  induction l with
  | nil => simp [insSorted]
  | cons y r ih =>
    by_cases h : le x y = true
    · simp [insSorted, h]
    · simp [insSorted, h, ih]

theorem length_isort (le : α → α → Bool) (l : List α) :
    (isort le l).length = l.length := by
  induction l with
  | nil => rfl
  | cons x r ih => simp [isort, length_insSorted, ih]

theorem pairwise_insSorted (le : α → α → Bool)
    (htot : ∀ a b, le a b = true ∨ le b a = true)
    (htrans : ∀ a b c, le a b = true → le b c = true → le a c = true)
    (x : α) (l : List α)
    (h : l.Pairwise (fun a b => le a b = true)) :
    (insSorted le x l).Pairwise (fun a b => le a b = true) := by
  induction l with
  | nil => simp [insSorted]
  | cons y r ih =>
    rcases List.pairwise_cons.mp h with ⟨hy, hr⟩
    by_cases hxy : le x y = true
    · simp only [insSorted, if_pos hxy]
      refine List.pairwise_cons.mpr ⟨?_, h⟩
      intro b hb
      rcases List.mem_cons.mp hb with hb | hb
      · exact hb ▸ hxy
      · exact htrans x y b hxy (hy b hb)
    · simp only [insSorted, if_neg hxy]
      refine List.pairwise_cons.mpr ⟨?_, ih hr⟩
      intro b hb
      rcases (mem_insSorted le x b r).mp hb with hb | hb
      · rcases htot x y with hx | hx
        · exact absurd hx hxy
        · exact hb ▸ hx
      · exact hy b hb

theorem pairwise_isort (le : α → α → Bool)
    (htot : ∀ a b, le a b = true ∨ le b a = true)
    (htrans : ∀ a b c, le a b = true → le b c = true → le a c = true)
    (l : List α) :
    (isort le l).Pairwise (fun a b => le a b = true) := by
  induction l with
  | nil => simp [isort]
  | cons x r ih => exact pairwise_insSorted le htot htrans x (isort le r) ih

/-! ## Search orchestrators (src/lib/mail-search.ts)

All three variants scan each in-scope mailbox from the newest message
(the end of the array) backwards over a bounded window, collect matches
while `collected < maxEmails`, and differ in scope and per-item payload.
The scan window `j = messageCount-1 .. startIdx` is
`messages.reverse.take (min window messageCount)`; the global
`collected < maxEmails` budget threads through mailboxes. -/

/-- Does a message match the (already lower-cased) search term?  Lines
65-68 / 163-166 / 276-279: lower-cased subject or sender contains the
term. -/
def msgMatches (searchLower : String) (m : Message) : Bool :=
  strContains (strLower m.subject) searchLower ||
    strContains (strLower m.sender) searchLower

/-- Scan one mailbox's prepared message window under a remaining budget;
returns the collected outputs in scan order and the budget left. -/
def scanMsgs (searchLower : String) (mk : Message → EmailOut) :
    List Message → Nat → List EmailOut × Nat
  | [], b => ([], b)
  | m :: rest, b =>
    if b = 0 then ([], 0)
    else if msgMatches searchLower m then
      let (es, b2) := scanMsgs searchLower mk rest (b - 1)
      (mk m :: es, b2)
    else scanMsgs searchLower mk rest b

/-- One in-scope mailbox prepared for scanning: its name, the account
name used in the pushed objects, and the scan window (newest first). -/
structure ScanEntry where
  mailboxName : String
  accountName : String
  window : List Message
deriving Repr, DecidableEq

/-- Scan a list of prepared mailboxes under one shared budget. -/
def collectFromEntries (searchLower : String)
    (mk : String → String → Message → EmailOut) :
    List ScanEntry → Nat → List EmailOut
  | [], _ => []
  | e :: rest, b =>
    let (es, b2) := scanMsgs searchLower (mk e.mailboxName e.accountName) e.window b
    es ++ collectFromEntries searchLower mk rest b2

/-- The newest-first scan window of a mailbox: `checkCount =
min(window, messageCount)`, scanned from index `messageCount-1` down to
`messageCount-checkCount`. -/
def scanWindow (windowSize : Nat) (mb : MailboxRec) : List Message :=
  mb.messages.reverse.take (min windowSize mb.messages.length)

/-- `searchMails` priority-mailbox test (lines 27, 41-47): the
upper-cased mailbox name contains one of the upper-cased priority
names. -/
def isPriorityMailbox (name : String) : Bool :=
  ["INBOX", "Sent Messages", "Sent"].any fun p =>
    strContains (strUpper name) (strUpper p)

/-- The object `searchMails` pushes (lines 77-90): no content, at most 3
recipients, `[No Subject]` / `[Unknown]` defaults. -/
def mkSearchMailsOut (mailboxName accountName : String) (m : Message) : EmailOut :=
  { id := toString m.numId
    messageId := m.msgId
    subject := orDefault m.subject "[No Subject]"
    sender := orDefault m.sender "[Unknown]"
    recipients := m.recipients.take 3
    dateSent := m.dateSent
    dateReceived := m.dateReceived
    content := ""
    isRead := m.isRead
    isFlagged := m.isFlagged
    mailbox := mailboxName
    accountName := accountName }

/-- Newest-first comparison used by the final `sort` calls: the
comparator `new Date(b.dateReceived) - new Date(a.dateReceived)` orders
by descending received timestamp. -/
def newerFirst (a b : EmailOut) : Bool := decide (b.dateReceived ≤ a.dateReceived)

/-- `searchMails` (lines 12-114): priority mailboxes of the first
`min(3, accounts.length)` accounts, a `messagesPerSearch`-deep window
per mailbox (the configured value enters as a parameter, §6), then a
final newest-first sort of the collected matches. -/
def searchMails (s : MailState) (searchTerm : String) (limit : Nat)
    (messagesPerSearch : Nat) : List EmailOut :=
  let searchLower := strLower searchTerm
  let entries :=
    (s.accounts.take 3).flatMap fun a =>
      (a.mailboxes.filter fun mb => isPriorityMailbox mb.name).map fun mb =>
        ⟨mb.name, a.name, scanWindow messagesPerSearch mb⟩
  isort newerFirst (collectFromEntries searchLower mkSearchMailsOut entries limit)

/-- `searchInbox` inbox test (lines 137-138): upper-cased name equal to
or containing INBOX. -/
def isInboxMailbox (name : String) : Bool :=
  strUpper name == "INBOX" || strContains (strUpper name) "INBOX"

/-- The object `searchInbox` pushes (lines 175-188): a 200-character
content preview, at most 5 recipients. -/
def mkSearchInboxOut (mailboxName accountName : String) (m : Message) : EmailOut :=
  { id := toString m.numId
    messageId := m.msgId
    subject := orDefault m.subject "[No Subject]"
    sender := orDefault m.sender "[Unknown]"
    recipients := m.recipients.take 5
    dateSent := m.dateSent
    dateReceived := m.dateReceived
    content := m.content.take 200
    isRead := m.isRead
    isFlagged := m.isFlagged
    mailbox := mailboxName
    accountName := accountName }

/-- `searchInbox` (lines 119-199): the first inbox-like mailbox of each
account (lines 133-144, `break` after one per account), a 100-deep
window each, shared budget — and no final sort. -/
def searchInbox (s : MailState) (searchTerm : String) (limit : Nat) :
    List EmailOut :=
  let searchLower := strLower searchTerm
  let entries :=
    s.accounts.filterMap fun a =>
      (a.mailboxes.find? fun mb => isInboxMailbox mb.name).map fun mb =>
        (⟨mb.name, a.name, scanWindow 100 mb⟩ : ScanEntry)
  collectFromEntries searchLower mkSearchInboxOut entries limit

/-- `searchInMailbox` resolution without an account (lines 245-256):
first account owning a mailbox of that name, scanning accounts in
order. -/
def findMailboxInAccounts (mailboxName : String) :
    List Account → Option (String × MailboxRec)
  | [] => none
  | a :: rest =>
    match a.mailboxes.find? (fun mb => mb.name == mailboxName) with
    | some mb => some (a.name, mb)
    | none => findMailboxInAccounts mailboxName rest

/-- `searchInMailbox` mailbox resolution (lines 227-256): within the
named account when one is given (first account of that name, first
mailbox of that name inside it), otherwise the first match across all
accounts.  Returns the owning account's name with the mailbox
(`targetMailbox.account().name()`). -/
def resolveSearchMailbox (s : MailState) (mailboxName : String)
    (accountName : Option String) : Option (String × MailboxRec) :=
  match accountName with
  | some an =>
    match s.accounts.find? (fun a => a.name == an) with
    | some a => (a.mailboxes.find? (fun mb => mb.name == mailboxName)).map
        fun mb => (a.name, mb)
    | none => none
  | none => findMailboxInAccounts mailboxName s.accounts

/-- The object `searchInMailbox` pushes (lines 289-302): no content, at
most 5 recipients. -/
def mkSearchMailboxOut (mailboxName accountName : String) (m : Message) : EmailOut :=
  { id := toString m.numId
    messageId := m.msgId
    subject := orDefault m.subject "[No Subject]"
    sender := orDefault m.sender "[Unknown]"
    recipients := m.recipients.take 5
    dateSent := m.dateSent
    dateReceived := m.dateReceived
    content := ""
    isRead := m.isRead
    isFlagged := m.isFlagged
    mailbox := mailboxName
    accountName := accountName }

/-- `searchInMailbox` (lines 204-312): resolve the mailbox (empty result
when it cannot be resolved, lines 258-260), then scan its
`messagesPerSearch`-deep window. -/
def searchInMailbox (s : MailState) (mailboxName searchTerm : String)
    (accountName : Option String) (limit messagesPerSearch : Nat) :
    List EmailOut :=
  match resolveSearchMailbox s mailboxName accountName with
  | none => []
  | some (an, mb) =>
    collectFromEntries (strLower searchTerm) mkSearchMailboxOut
      [⟨mb.name, an, scanWindow messagesPerSearch mb⟩] limit

/-! ### C2: budget bound and ordering -/

theorem scanMsgs_budget (searchLower : String) (mk : Message → EmailOut)
    (msgs : List Message) (b : Nat) :
    (scanMsgs searchLower mk msgs b).1.length + (scanMsgs searchLower mk msgs b).2 = b := by
  induction msgs generalizing b with
  | nil => simp [scanMsgs]
  | cons m rest ih =>
    by_cases hb : b = 0
    · simp [scanMsgs, hb]
    · by_cases hm : msgMatches searchLower m = true
      · have := ih (b - 1)
        simp only [scanMsgs, if_neg hb, if_pos hm]
        simp only [List.length_cons]
        omega
      · simp only [scanMsgs, if_neg hb, if_neg hm]
        exact ih b

theorem collectFromEntries_budget (searchLower : String)
    (mk : String → String → Message → EmailOut)
    (entries : List ScanEntry) (b : Nat) :
    (collectFromEntries searchLower mk entries b).length ≤ b := by
  induction entries generalizing b with
  | nil => simp [collectFromEntries]
  | cons e rest ih =>
    have hb := scanMsgs_budget searchLower (mk e.mailboxName e.accountName) e.window b
    have hr := ih (scanMsgs searchLower (mk e.mailboxName e.accountName) e.window b).2
    simp only [collectFromEntries, List.length_append]
    omega

theorem newerFirst_total (a b : EmailOut) :
    newerFirst a b = true ∨ newerFirst b a = true := by
  simp only [newerFirst, decide_eq_true_eq]
  omega

theorem newerFirst_trans (a b c : EmailOut) :
    newerFirst a b = true → newerFirst b c = true → newerFirst a c = true := by
  simp only [newerFirst, decide_eq_true_eq]
  omega

/-- C2 (amended). Every search variant returns at most `limit` results;
`searchMails` — the one variant whose scan crosses mailboxes of
different kinds and ends with `emails.sort(...)` — returns a sequence
that is non-increasing in `dateReceived`.  (`searchInbox` concatenates
per-inbox results without a final sort; see the counterexample.) -/
theorem search_limit_and_order (s : MailState) (searchTerm mailboxName : String)
    (accountName : Option String) (limit messagesPerSearch : Nat) :
    (searchMails s searchTerm limit messagesPerSearch).length ≤ limit ∧
    (searchInbox s searchTerm limit).length ≤ limit ∧
    (searchInMailbox s mailboxName searchTerm accountName limit messagesPerSearch).length ≤ limit ∧
    ((searchMails s searchTerm limit messagesPerSearch).map EmailOut.dateReceived).Pairwise
      (fun a b => b ≤ a) := by
  refine ⟨?_, ?_, ?_, ?_⟩
  · simp only [searchMails, length_isort]
    exact collectFromEntries_budget _ _ _ _
  · exact collectFromEntries_budget _ _ _ _
  · unfold searchInMailbox
    cases resolveSearchMailbox s mailboxName accountName with
    | none => simp
    | some p => exact collectFromEntries_budget _ _ _ _
  · have hp := pairwise_isort newerFirst newerFirst_total newerFirst_trans
      (collectFromEntries (strLower searchTerm) mkSearchMailsOut
        ((s.accounts.take 3).flatMap fun a =>
          (a.mailboxes.filter fun mb => isPriorityMailbox mb.name).map fun mb =>
            ⟨mb.name, a.name, scanWindow messagesPerSearch mb⟩) limit)
    rw [searchMails, List.pairwise_map]
    exact hp.imp fun h => by
      simpa [newerFirst] using h

/-- The two-account state refuting C2 as stated: each account has an
inbox with one matching message; account A's message is older
(timestamp 1) than account B's (timestamp 2). -/
def c2State : MailState :=
  { accounts :=
      [ { name := "A"
          mailboxes :=
            [ { name := "INBOX", parent := none
                messages :=
                  [ { numId := 1, msgId := "<a@x>", subject := "x topic"
                      sender := "p@x", recipients := [], dateSent := 1
                      dateReceived := 1, content := "", isRead := false
                      isFlagged := false } ] } ] }
      , { name := "B"
          mailboxes :=
            [ { name := "INBOX", parent := none
                messages :=
                  [ { numId := 2, msgId := "<b@x>", subject := "x topic"
                      sender := "q@x", recipients := [], dateSent := 2
                      dateReceived := 2, content := "", isRead := false
                      isFlagged := false } ] } ] } ]
    globalMailboxes := [] }

/-- C2 counterexample. `searchInbox` on `c2State` draws one result from
each of two different mailboxes (accounts A and B) yet returns them in
account order — received timestamps `[1, 2]`, an increasing sequence —
because `searchInbox` never sorts across inboxes.  The claim's ordering
guarantee fails for `searchInbox`. -/
theorem searchInbox_not_sorted_across_mailboxes :
    ((searchInbox c2State "x" 20).map
        fun e => (e.dateReceived, e.accountName, e.mailbox)) =
      [(1, "A", "INBOX"), (2, "B", "INBOX")] ∧
    ¬ ((searchInbox c2State "x" 20).map EmailOut.dateReceived).Pairwise
        (fun a b => b ≤ a) := by
  constructor
  · rfl
  · decide

/-! ## Bulk operations (src/lib/mail-operations.ts)

`markAsRead`, `deleteEmails` and the scan phase of `moveEmails` share
one loop shape: a mutable working set `targetIds` of Message-IDs; for
each message whose `messageId()` is still in the set, apply the action,
bump the counter, `splice` the id out, and `return` as soon as the set
is empty.  `markAsRead` walks each mailbox's messages forward,
`deleteEmails` and `moveEmails` backward; all walk accounts and
mailboxes in order.  The loop over the flattened message sequence: -/

/-- The shared working-set scan: returns (successes, remaining working
set, the ids found in encounter order).  `List.erase` is `splice` at
`indexOf` — removal of the first occurrence. -/
def opScan : List Message → List String → Nat × List String × List String
  | [], targets => (0, targets, [])
  | m :: rest, targets =>
    if m.msgId ∈ targets then
      let t2 := targets.erase m.msgId
      if t2.isEmpty then (1, [], [m.msgId])
      else
        let (c, r, f) := opScan rest t2
        (c + 1, r, m.msgId :: f)
    else opScan rest targets

/-- The message sequence `markAsRead` walks (lines 88-118): accounts in
order, each account's mailboxes in order, each mailbox's messages
forward. -/
def scanSeqForward (s : MailState) : List Message :=
  s.accounts.flatMap fun a => a.mailboxes.flatMap fun mb => mb.messages

/-- The message sequence `deleteEmails` walks (lines 133-162): as
`scanSeqForward` but each mailbox's messages from the end backwards. -/
def scanSeqBackward (s : MailState) : List Message :=
  s.accounts.flatMap fun a => a.mailboxes.flatMap fun mb => mb.messages.reverse

/-- `markAsRead` (lines 82-122): returns the bare count of marked
messages (a number — the generated program returns `markedCount`). -/
def markAsRead (s : MailState) (messageIds : List String) : Nat :=
  (opScan (scanSeqForward s) messageIds).1

/-- `deleteEmails` (lines 127-166): returns the bare count of deleted
messages. -/
def deleteEmails (s : MailState) (messageIds : List String) : Nat :=
  (opScan (scanSeqBackward s) messageIds).1

/-- `moveEmails` destination resolution (lines 190-217): inside the
named account when one is given (first account of that name, stopping
there even on failure), otherwise the first name match in the global
`Mail.mailboxes()` list. -/
def resolveMoveTarget (s : MailState) (destMailboxName : String)
    (destAccountName : Option String) : Option MailboxRec :=
  match destAccountName with
  | some an =>
    match s.accounts.find? (fun a => a.name == an) with
    | some a => a.mailboxes.find? (fun mb => mb.name == destMailboxName)
    | none => none
  | none => s.globalMailboxes.find? (fun mb => mb.name == destMailboxName)

/-- The error string of lines 220-224. -/
def moveTargetNotFoundError (destMailboxName : String)
    (destAccountName : Option String) : String :=
  "Target mailbox '" ++ destMailboxName ++ "' not found" ++
    match destAccountName with
    | some an => " in account '" ++ an ++ "'"
    | none => ""

/-- The scan phase of `moveEmails` (lines 228-268) over the flattened
mailbox list: skip non-INBOX mailboxes when `searchInboxOnly`, scan each
remaining mailbox's messages backward with the working set, and return
out of everything once the set empties *by a removal* (a set empty on
entry keeps scanning, matching the code, which only returns inside the
match branch).  Result: (moved count, remaining set, moved ids, names of
the mailboxes whose messages were fetched). -/
def moveScan : List MailboxRec → List String → Bool →
    Nat × List String × List String × List String
  | [], targets, _ => (0, targets, [], [])
  | mb :: rest, targets, inboxOnly =>
    if inboxOnly && !(mb.name == "INBOX" || mb.name == "Inbox") then
      moveScan rest targets inboxOnly
    else
      let (c, t, f) := opScan mb.messages.reverse targets
      if t.isEmpty && !targets.isEmpty then (c, t, f, [mb.name])
      else
        let (c2, t2, f2, sc) := moveScan rest t inboxOnly
        (c + c2, t2, f ++ f2, mb.name :: sc)

/-- The result record of `moveEmails` (`MoveEmailResult` in
src/lib/types.ts usage). -/
structure MoveEmailResult where
  moved : Nat
  errors : List String
deriving Repr, DecidableEq

/-- `moveEmails` (lines 172-276): resolve the destination (single error
and zero moved on failure), scan all accounts' mailboxes, and afterwards
report the still-missing ids as one joined "Could not find messages"
error.  In-host move failures cannot occur in this state model, so the
error list holds at most that one entry. -/
def moveEmails (s : MailState) (messageIds : List String)
    (targetMailbox : String) (targetAccount : Option String)
    (searchInboxOnly : Bool) : MoveEmailResult :=
  match resolveMoveTarget s targetMailbox targetAccount with
  | none => { moved := 0, errors := [moveTargetNotFoundError targetMailbox targetAccount] }
  | some _ =>
    let r := moveScan (s.accounts.flatMap Account.mailboxes) messageIds searchInboxOnly
    { moved := r.1
      errors :=
        if r.2.1.isEmpty then []
        else ["Could not find messages: " ++ String.intercalate ", " r.2.1] }

/-- The mailboxes whose message lists `moveEmails` fetches: empty when
resolution short-circuits before the scan. -/
def moveEmailsScanned (s : MailState) (messageIds : List String)
    (targetMailbox : String) (targetAccount : Option String)
    (searchInboxOnly : Bool) : List String :=
  match resolveMoveTarget s targetMailbox targetAccount with
  | none => []
  | some _ => (moveScan (s.accounts.flatMap Account.mailboxes) messageIds searchInboxOnly).2.2.2

/-- The Message-IDs `moveEmails` actually moves: empty when resolution
short-circuits. -/
def moveEmailsMovedIds (s : MailState) (messageIds : List String)
    (targetMailbox : String) (targetAccount : Option String)
    (searchInboxOnly : Bool) : List String :=
  match resolveMoveTarget s targetMailbox targetAccount with
  | none => []
  | some _ => (moveScan (s.accounts.flatMap Account.mailboxes) messageIds searchInboxOnly).2.2.1

/-- C6. When the destination mailbox cannot be resolved, `moveEmails`
returns zero moved and exactly the one resolution error (a non-empty
error list), fetches no mailbox's messages, and moves no message. -/
theorem moveEmails_unresolved_target (s : MailState) (messageIds : List String)
    (targetMailbox : String) (targetAccount : Option String) (searchInboxOnly : Bool)
    (h : resolveMoveTarget s targetMailbox targetAccount = none) :
    moveEmails s messageIds targetMailbox targetAccount searchInboxOnly =
      { moved := 0, errors := [moveTargetNotFoundError targetMailbox targetAccount] } ∧
    (moveEmails s messageIds targetMailbox targetAccount searchInboxOnly).errors ≠ [] ∧
    moveEmailsScanned s messageIds targetMailbox targetAccount searchInboxOnly = [] ∧
    moveEmailsMovedIds s messageIds targetMailbox targetAccount searchInboxOnly = [] := by
  refine ⟨?_, ?_, ?_, ?_⟩ <;>
    simp [moveEmails, moveEmailsScanned, moveEmailsMovedIds, h]

/-- Witness for `moveEmails_unresolved_target`: an empty Mail state
resolves no destination. -/
theorem moveEmails_unresolved_target_witness :
    moveEmails ⟨[], []⟩ ["<a@x>"] "Archive" none false =
      { moved := 0, errors := [moveTargetNotFoundError "Archive" none] } ∧
    (moveEmails ⟨[], []⟩ ["<a@x>"] "Archive" none false).errors ≠ [] ∧
    moveEmailsScanned ⟨[], []⟩ ["<a@x>"] "Archive" none false = [] ∧
    moveEmailsMovedIds ⟨[], []⟩ ["<a@x>"] "Archive" none false = [] :=
  moveEmails_unresolved_target ⟨[], []⟩ ["<a@x>"] "Archive" none false rfl

/-! ### C1: partial-success accounting of the working-set scan -/

theorem opScan_nil_targets (msgs : List Message) : opScan msgs [] = (0, [], []) := by
  induction msgs with
  | nil => rfl
  | cons m rest ih => simp [opScan, ih]

/-- A list whose erase-of-a-member is empty is that singleton. -/
theorem eq_singleton_of_erase_nil {l : List String} {k : String} (hk : k ∈ l)
    (he : l.erase k = []) : l = [k] := by
  have h1 := List.length_erase_add_one hk
  rw [he] at h1
  simp only [List.length_nil, Nat.zero_add] at h1
  rcases List.length_eq_one.mp h1.symm with ⟨a, ha⟩
  subst ha
  simp only [List.mem_singleton] at hk
  subst hk
  rfl

theorem opScan_size (msgs : List Message) (targets : List String) :
    (opScan msgs targets).1 + (opScan msgs targets).2.1.length = targets.length := by
  induction msgs generalizing targets with
  | nil => simp [opScan]
  | cons m rest ih =>
    by_cases hm : m.msgId ∈ targets
    · have herase := List.length_erase_add_one hm
      by_cases he : (targets.erase m.msgId).isEmpty
      · have he2 : targets.erase m.msgId = [] := List.isEmpty_iff.mp he
        rw [he2] at herase
        simp [opScan, hm, he2]
        simp only [List.length_nil] at herase
        omega
      · rcases hs : opScan rest (targets.erase m.msgId) with ⟨c, r, f⟩
        have ihr := ih (targets.erase m.msgId)
        rw [hs] at ihr
        simp only [opScan, if_pos hm, if_neg he, hs]
        simp only at ihr ⊢
        omega
    · simp only [opScan, if_neg hm]
      exact ih targets

/-- Length split of a filter and its complement. -/
theorem length_filter_not_add (p : α → Bool) (l : List α) :
    (l.filter p).length + (l.filter fun x => !p x).length = l.length := by
  induction l with
  | nil => rfl
  | cons x r ih =>
    by_cases hx : p x = true <;> simp [hx] <;> omega

theorem opScan_remaining (msgs : List Message) (targets : List String)
    (h : targets.Nodup) :
    (opScan msgs targets).2.1 =
      targets.filter fun t => !decide (t ∈ msgs.map Message.msgId) := by
  induction msgs generalizing targets with
  | nil => simp [opScan]
  | cons m rest ih =>
    by_cases hm : m.msgId ∈ targets
    · by_cases he : (targets.erase m.msgId).isEmpty
      · have hsing : targets = [m.msgId] := eq_singleton_of_erase_nil hm (List.isEmpty_iff.mp he)
        subst hsing
        simp [opScan]
      · rcases hs : opScan rest (targets.erase m.msgId) with ⟨c, r, f⟩
        have ihr := ih (targets.erase m.msgId) (h.erase _)
        rw [hs] at ihr
        simp only [opScan, if_pos hm, if_neg he, hs]
        simp only at ihr
        rw [ihr, List.Nodup.erase_eq_filter h, List.filter_filter]
        apply List.filter_congr
        intro x _
        by_cases h1 : x = m.msgId <;> by_cases h2 : x ∈ rest.map Message.msgId <;>
          simp [h1, h2]
    · simp only [opScan, if_neg hm]
      rw [ih targets h]
      apply List.filter_congr
      intro x hx
      have hne : x ≠ m.msgId := fun hx2 => hm (hx2 ▸ hx)
      by_cases h2 : x ∈ rest.map Message.msgId <;> simp [hne, h2]

theorem opScan_count (msgs : List Message) (targets : List String)
    (h : targets.Nodup) :
    (opScan msgs targets).1 =
      (targets.filter fun t => decide (t ∈ msgs.map Message.msgId)).length := by
  have hsize := opScan_size msgs targets
  have hrem := opScan_remaining msgs targets h
  have hsplit := length_filter_not_add (fun t => decide (t ∈ msgs.map Message.msgId)) targets
  rw [hrem] at hsize
  omega

/-- The Message-IDs findable in the full account/mailbox scope; the
order of the walk (forward or backward within a mailbox) does not change
which ids are findable. -/
def findableCount (s : MailState) (ids : List String) : Nat :=
  (ids.filter fun t => decide (t ∈ (scanSeqForward s).map Message.msgId)).length

theorem mem_scanSeqBackward_iff (s : MailState) (t : String) :
    t ∈ (scanSeqBackward s).map Message.msgId ↔
      t ∈ (scanSeqForward s).map Message.msgId := by
  simp only [scanSeqBackward, scanSeqForward, List.map_flatMap, List.mem_flatMap,
    List.map_reverse, List.mem_reverse]

theorem opScan_append (l1 l2 : List Message) (targets : List String) :
    opScan (l1 ++ l2) targets =
      ((opScan l1 targets).1 + (opScan l2 (opScan l1 targets).2.1).1,
       (opScan l2 (opScan l1 targets).2.1).2.1,
       (opScan l1 targets).2.2 ++ (opScan l2 (opScan l1 targets).2.1).2.2) := by
  induction l1 generalizing targets with
  | nil => simp [opScan]
  | cons m rest ih =>
    by_cases hm : m.msgId ∈ targets
    · by_cases he : (targets.erase m.msgId).isEmpty
      · have he2 : targets.erase m.msgId = [] := List.isEmpty_iff.mp he
        simp [opScan, hm, he2, opScan_nil_targets]
      · rcases hs2 : opScan rest (targets.erase m.msgId) with ⟨c1, r1, f1⟩
        have ihr := ih (targets.erase m.msgId)
        rw [hs2] at ihr
        simp only at ihr
        simp only [List.cons_append, opScan, if_pos hm, if_neg he, hs2]
        simp only [List.append_eq]
        rw [ihr]
        simp only [Prod.mk.injEq]
        refine ⟨by omega, ?_⟩
        simp
    · simp only [List.cons_append, opScan, if_neg hm]
      exact ih targets

/-- `moveScan` without the inbox-only filter walks exactly the
concatenation of the reversed message lists: same count, same remaining
working set. -/
theorem moveScan_eq_opScan (mbs : List MailboxRec) (targets : List String) :
    (moveScan mbs targets false).1 =
      (opScan (mbs.flatMap fun mb => mb.messages.reverse) targets).1 ∧
    (moveScan mbs targets false).2.1 =
      (opScan (mbs.flatMap fun mb => mb.messages.reverse) targets).2.1 := by
  induction mbs generalizing targets with
  | nil => simp [moveScan, opScan]
  | cons mb rest ih =>
    rcases hs : opScan mb.messages.reverse targets with ⟨c, t, f⟩
    have happ := opScan_append mb.messages.reverse
      (rest.flatMap fun mb => mb.messages.reverse) targets
    rw [hs] at happ
    simp only at happ
    by_cases hstop : (t.isEmpty && !targets.isEmpty) = true
    · have ht : t = [] := List.isEmpty_iff.mp ((Bool.and_eq_true _ _).mp hstop).1
      subst ht
      simp only [moveScan, Bool.false_and, Bool.not_false, if_neg (by simp : ¬ (false = true)),
        hs, hstop, if_pos rfl, List.flatMap_cons, happ, opScan_nil_targets]
      simp
    · simp only [moveScan, Bool.false_and, if_neg (by simp : ¬ (false = true)), hs,
        hstop, if_neg hstop, List.flatMap_cons, happ]
      rcases ih t with ⟨ih1, ih2⟩
      constructor
      · simp only [ih1]
      · simp only [ih2]

theorem mem_moveScope_iff (s : MailState) (t : String) :
    (t ∈ ((s.accounts.flatMap Account.mailboxes).flatMap
        fun mb => mb.messages.reverse).map Message.msgId) ↔
      t ∈ (scanSeqForward s).map Message.msgId := by
  simp only [scanSeqForward, List.map_flatMap, List.mem_flatMap, List.map_reverse,
    List.mem_reverse]
  constructor
  · rintro ⟨mb, ⟨a, ha, hmba⟩, hm⟩
    exact ⟨a, ha, mb, hmba, hm⟩
  · rintro ⟨a, ha, mb, hmba, hmm⟩
    exact ⟨mb, ⟨a, ha, hmba⟩, hmm⟩

/-- C1 (amended). With pairwise-distinct identifiers, of which `M =
findableCount` occur in the scanned scope: `markAsRead` and
`deleteEmails` return the bare succeeded count `M` (the generated
programs return a number; no error list exists for them), and
`moveEmails` (full scope, action always succeeding) moves `M` and
reports the `N - M` unfindable identifiers as exactly ONE joined
"Could not find messages" error entry — not `N - M` entries. -/
theorem bulkOps_partial_success (s : MailState) (ids : List String)
    (targetMailbox : String) (targetAccount : Option String)
    (hnd : ids.Nodup) (hres : resolveMoveTarget s targetMailbox targetAccount ≠ none) :
    markAsRead s ids = findableCount s ids ∧
    deleteEmails s ids = findableCount s ids ∧
    (moveEmails s ids targetMailbox targetAccount false).moved = findableCount s ids ∧
    (moveEmails s ids targetMailbox targetAccount false).errors.length =
      (if findableCount s ids = ids.length then 0 else 1) := by
  have hcongr_back :
      (ids.filter fun t => decide (t ∈ (scanSeqBackward s).map Message.msgId)) =
        ids.filter fun t => decide (t ∈ (scanSeqForward s).map Message.msgId) := by
    apply List.filter_congr
    intro x _
    exact decide_eq_decide.mpr (mem_scanSeqBackward_iff s x)
  have hcongr_move :
      (ids.filter fun t => decide (t ∈ ((s.accounts.flatMap Account.mailboxes).flatMap
          fun mb => mb.messages.reverse).map Message.msgId)) =
        ids.filter fun t => decide (t ∈ (scanSeqForward s).map Message.msgId) := by
    apply List.filter_congr
    intro x _
    exact decide_eq_decide.mpr (mem_moveScope_iff s x)
  rcases hmb : resolveMoveTarget s targetMailbox targetAccount with _ | mb
  · exact absurd hmb hres
  have hms := moveScan_eq_opScan (s.accounts.flatMap Account.mailboxes) ids
  have hcount := opScan_count ((s.accounts.flatMap Account.mailboxes).flatMap
    fun mb => mb.messages.reverse) ids hnd
  have hrem := opScan_remaining ((s.accounts.flatMap Account.mailboxes).flatMap
    fun mb => mb.messages.reverse) ids hnd
  have hmoved : (moveEmails s ids targetMailbox targetAccount false).moved =
      findableCount s ids := by
    simp only [moveEmails, hmb]
    rw [hms.1, hcount, findableCount, hcongr_move]
  refine ⟨?_, ?_, hmoved, ?_⟩
  · rw [markAsRead, opScan_count (scanSeqForward s) ids hnd, findableCount]
  · rw [deleteEmails, opScan_count (scanSeqBackward s) ids hnd, findableCount, hcongr_back]
  · have hiff : ((moveScan (s.accounts.flatMap Account.mailboxes) ids false).2.1.isEmpty = true) ↔
        findableCount s ids = ids.length := by
      rw [hms.2, hrem, List.isEmpty_iff]
      have hsplit := length_filter_not_add
        (fun t => decide (t ∈ ((s.accounts.flatMap Account.mailboxes).flatMap
          fun mb => mb.messages.reverse).map Message.msgId)) ids
      constructor
      · intro hz
        rw [hz] at hsplit
        simp only [List.length_nil, Nat.add_zero] at hsplit
        rw [findableCount, ← hcongr_move]
        exact hsplit
      · intro hlen
        rw [findableCount, ← hcongr_move] at hlen
        rw [hlen] at hsplit
        have : (ids.filter fun t => !decide (t ∈ ((s.accounts.flatMap Account.mailboxes).flatMap
            fun mb => mb.messages.reverse).map Message.msgId)).length = 0 := by omega
        exact List.length_eq_zero.mp this
    simp only [moveEmails, hmb]
    by_cases hc : findableCount s ids = ids.length
    · rw [if_pos (hiff.mpr hc), if_pos hc]
      rfl
    · rw [if_neg (fun h => hc (hiff.mp h)), if_neg hc]
      rfl

/-- A small Mail state for C1: one account whose inbox holds the one
findable message `<a@x>`, and a destination mailbox `T` visible in the
global mailbox list. -/
def c1State : MailState :=
  { accounts :=
      [ { name := "A"
          mailboxes :=
            [ { name := "INBOX", parent := none
                messages :=
                  [ { numId := 1, msgId := "<a@x>", subject := "hello"
                      sender := "p@x", recipients := [], dateSent := 1
                      dateReceived := 1, content := "", isRead := false
                      isFlagged := false } ] } ] } ]
    globalMailboxes := [{ name := "T", parent := none, messages := [] }] }

/-- Witness for `bulkOps_partial_success` on `c1State` with one findable
and one missing identifier. -/
theorem bulkOps_partial_success_witness :
    (["<a@x>", "<missing@x>"] : List String).Nodup ∧
    resolveMoveTarget c1State "T" none ≠ none ∧
    (markAsRead c1State ["<a@x>", "<missing@x>"] =
        findableCount c1State ["<a@x>", "<missing@x>"] ∧
      deleteEmails c1State ["<a@x>", "<missing@x>"] =
        findableCount c1State ["<a@x>", "<missing@x>"] ∧
      (moveEmails c1State ["<a@x>", "<missing@x>"] "T" none false).moved =
        findableCount c1State ["<a@x>", "<missing@x>"] ∧
      (moveEmails c1State ["<a@x>", "<missing@x>"] "T" none false).errors.length =
        (if findableCount c1State ["<a@x>", "<missing@x>"] =
            (["<a@x>", "<missing@x>"] : List String).length then 0 else 1)) :=
  ⟨by decide, by decide,
    bulkOps_partial_success c1State ["<a@x>", "<missing@x>"] "T" none
      (by decide) (by decide)⟩

/-- C1 counterexample. Three identifiers, one findable (`M = 1`,
`N - M = 2`): `moveEmails` reports the two missing identifiers as ONE
joined error entry, so the errors list has 1 entry, not the claimed
`N - M = 2`.  (`markAsRead` on the claim's own scenario returns the bare
number `1` — the generated program returns `markedCount` — not a record
with an `errors` field, so the claimed result shape is also wrong for
`markAsRead`/`deleteEmails`.) -/
theorem moveEmails_joined_error_counterexample :
    moveEmails c1State ["<a@x>", "<m1@x>", "<m2@x>"] "T" none false =
      { moved := 1, errors := ["Could not find messages: <m1@x>, <m2@x>"] } ∧
    markAsRead c1State ["<a@x>", "<missing@x>"] = 1 ∧
    (moveEmails c1State ["<a@x>", "<m1@x>", "<m2@x>"] "T" none false).errors.length = 1 ∧
    (3 : Nat) - 1 = 2 ∧ (1 : Nat) ≠ 2 := by
  refine ⟨by decide, by decide, by decide, rfl, by decide⟩

/-! ## Association lists modelling JavaScript objects

`getMailboxHierarchy` keeps `tree` and `childrenMap` as plain objects.
`obj[k] = v` keeps an existing key's position and otherwise appends the
key; `for (k in obj)` visits keys in that order (the numeric-key
reordering of JavaScript objects cannot change any output here: `tree`
is consumed by key lookup and `childrenMap`'s visit order only permutes
`roots` before its final sort). -/

/-- Key lookup (`obj[k]`). -/
def alo (k : String) : List (String × α) → Option α
  | [] => none
  | (k2, v) :: r => if k2 = k then some v else alo k r

/-- Assignment `obj[k] = v`: update in place, or append a new key. -/
def aput (k : String) (v : α) : List (String × α) → List (String × α)
  | [] => [(k, v)]
  | (k2, w) :: r => if k2 = k then (k, v) :: r else (k2, w) :: aput k v r

/-- `childrenMap[k].push(x)` with creation of a missing entry. -/
def apush (k : String) (x : String) : List (String × List String) → List (String × List String)
  | [] => [(k, [x])]
  | (k2, xs) :: r => if k2 = k then (k2, xs ++ [x]) :: r else (k2, xs) :: apush k x r

theorem alo_aput_self (k : String) (v : α) (l : List (String × α)) :
    alo k (aput k v l) = some v := by
  induction l with
  | nil => simp [aput, alo]
  | cons p r ih =>
    by_cases h : p.1 = k
    · simp [aput, alo, h]
    · simp [aput, alo, h, ih]

theorem alo_aput_ne (k q : String) (v : α) (l : List (String × α)) (h : q ≠ k) :
    alo q (aput k v l) = alo q l := by
  have hk : ¬ k = q := fun hh => h hh.symm
  induction l with
  | nil => simp [aput, alo, hk]
  | cons p r ih =>
    by_cases hp : p.1 = k
    · subst hp
      simp [aput, alo, hk]
    · by_cases hq : p.1 = q
      · simp [aput, alo, hp, hq, h]
      · simp [aput, alo, hp, hq, ih]

theorem mem_aput (k : String) (v : α) (l : List (String × α)) (p : String × α)
    (h : p ∈ aput k v l) : p = (k, v) ∨ p ∈ l := by
  induction l with
  | nil => simpa [aput] using h
  | cons q r ih =>
    by_cases hq : q.1 = k
    · rcases List.mem_cons.mp (by simpa [aput, hq] using h) with h2 | h2
      · exact Or.inl h2
      · exact Or.inr (List.mem_cons.mpr (Or.inr h2))
    · rcases List.mem_cons.mp (by simpa [aput, hq] using h) with h2 | h2
      · exact Or.inr (List.mem_cons.mpr (Or.inl h2))
      · rcases ih h2 with h3 | h3
        · exact Or.inl h3
        · exact Or.inr (List.mem_cons.mpr (Or.inr h3))

/-- `alo` is `none` exactly off the key list. -/
theorem alo_eq_none_iff (k : String) (l : List (String × α)) :
    alo k l = none ↔ k ∉ l.map Prod.fst := by
  induction l with
  | nil => simp [alo]
  | cons p r ih =>
    by_cases h : p.1 = k
    · simp [alo, h]
    · have hk : ¬ k = p.1 := fun hh => h hh.symm
      simp only [alo, if_neg h, List.map_cons, List.mem_cons, not_or, ih]
      tauto

theorem alo_isSome_of_mem_keys (k : String) (l : List (String × α))
    (h : k ∈ l.map Prod.fst) : (alo k l).isSome = true := by
  rcases ho : alo k l with _ | v
  · exact absurd h ((alo_eq_none_iff k l).mp ho)
  · rfl

/-- Sum of a numeric measure of the values. -/
def asum (g : α → Nat) (l : List (String × α)) : Nat :=
  (l.map fun p => g p.2).sum

theorem asum_cons (g : α → Nat) (p : String × α) (l : List (String × α)) :
    asum g (p :: l) = g p.2 + asum g l := by
  simp [asum]

theorem asum_aput_of_alo_none (g : α → Nat) (k : String) (v : α)
    (l : List (String × α)) (h : alo k l = none) :
    asum g (aput k v l) = asum g l + g v := by
  induction l with
  | nil => simp [aput, asum]
  | cons p r ih =>
    by_cases hp : p.1 = k
    · simp [alo, hp] at h
    · have hr : alo k r = none := by simpa [alo, hp] using h
      simp only [aput, if_neg hp, asum_cons]
      rw [ih hr]
      omega

theorem asum_aput_of_alo_zero (g : α → Nat) (k : String) (v w : α)
    (l : List (String × α)) (h : alo k l = some w) (hw : g w = 0) :
    asum g (aput k v l) = asum g l + g v := by
  induction l with
  | nil => simp [alo] at h
  | cons p r ih =>
    by_cases hp : p.1 = k
    · have hw2 : p.2 = w := by
        have := h
        simp [alo, hp] at this
        exact this
      simp only [aput, if_pos hp, asum_cons, hw2, hw]
      omega
    · have hr : alo k r = some w := by simpa [alo, hp] using h
      simp only [aput, if_neg hp, asum_cons]
      rw [ih hr]
      omega

theorem asum_apush (k x : String) (l : List (String × List String)) :
    asum List.length (apush k x l) = asum List.length l + 1 := by
  induction l with
  | nil => simp [apush, asum]
  | cons p r ih =>
    by_cases hp : p.1 = k
    · simp [apush, hp, asum_cons]
      omega
    · simp only [apush, if_neg hp, asum_cons]
      omega

theorem keys_aput (k : String) (v : α) (l : List (String × α)) (q : String) :
    q ∈ (aput k v l).map Prod.fst ↔ q = k ∨ q ∈ l.map Prod.fst := by
  induction l with
  | nil => simp [aput]
  | cons p r ih =>
    by_cases hp : p.1 = k
    · subst hp
      simp [aput]
    · simp only [aput, if_neg hp, List.map_cons, List.mem_cons, ih]
      tauto

theorem keys_apush (k x : String) (l : List (String × List String)) (q : String) :
    q ∈ (apush k x l).map Prod.fst ↔ q = k ∨ q ∈ l.map Prod.fst := by
  induction l with
  | nil => simp [apush]
  | cons p r ih =>
    by_cases hp : p.1 = k
    · subst hp
      simp [apush]
    · simp only [apush, if_neg hp, List.map_cons, List.mem_cons, ih]
      tauto

theorem nodup_keys_aput (k : String) (v : α) (l : List (String × α))
    (h : (l.map Prod.fst).Nodup) : ((aput k v l).map Prod.fst).Nodup := by
  induction l with
  | nil => simp [aput]
  | cons p r ih =>
    simp only [List.map_cons] at h
    rcases List.nodup_cons.mp h with ⟨hp, hr⟩
    by_cases hpk : p.1 = k
    · subst hpk
      simp only [aput, if_pos rfl, List.map_cons]
      exact List.nodup_cons.mpr ⟨hp, hr⟩
    · simp only [aput, if_neg hpk, List.map_cons]
      refine List.nodup_cons.mpr ⟨?_, ih hr⟩
      intro hmem
      rcases (keys_aput k v r p.1).mp hmem with h1 | h1
      · exact hpk h1
      · exact hp h1

/-! ## The default JavaScript string sort order

`Array.prototype.sort()` without comparator sorts strings by code
units; modelled per code point (identical on the BMP). -/

/-- Lexicographic less-or-equal on character lists by code point. -/
def charListLe : List Char → List Char → Bool
  | [], _ => true
  | _ :: _, [] => false
  | c :: cs, d :: ds =>
    if c.toNat < d.toNat then true
    else if d.toNat < c.toNat then false
    else charListLe cs ds

/-- Lexicographic less-or-equal on strings, the order of the default
`sort()`. -/
def strLeB (a b : String) : Bool := charListLe a.data b.data

theorem charListLe_total (a b : List Char) :
    charListLe a b = true ∨ charListLe b a = true := by
  induction a generalizing b with
  | nil => simp [charListLe]
  | cons c cs ih =>
    cases b with
    | nil => simp [charListLe]
    | cons d ds =>
      by_cases h1 : c.toNat < d.toNat
      · simp [charListLe, h1]
      · by_cases h2 : d.toNat < c.toNat
        · simp [charListLe, h1, h2]
        · have h3 : ¬ c.toNat < d.toNat := h1
          simp only [charListLe, if_neg h1, if_neg h2, if_neg h3,
            if_neg (by omega : ¬ d.toNat < c.toNat)]
          exact ih ds

theorem charListLe_trans (a b c : List Char) (h1 : charListLe a b = true)
    (h2 : charListLe b c = true) : charListLe a c = true := by
  induction a generalizing b c with
  | nil => simp [charListLe]
  | cons x xs ih =>
    cases b with
    | nil => simp [charListLe] at h1
    | cons y ys =>
      cases c with
      | nil => simp [charListLe] at h2
      | cons z zs =>
        simp only [charListLe] at h1 h2 ⊢
        split_ifs at h1 h2 ⊢ <;>
          first
            | rfl
            | omega
            | (exact ih ys zs h1 h2)

/-! ## Mailbox hierarchy builder (src/lib/mail-accounts.ts, lines 50-160) -/

/-- The unread count a mailbox reports (lines 94-112): sample the read
status of the first 100 messages; when the mailbox holds more than 100
messages and the sample found unread ones, extrapolate linearly with
`Math.round(unreadCount * messages.length / 100)` (for non-negative
reals `Math.round(x) = floor(x + 1/2)`, i.e. `(u * n + 50) / 100` in
natural division). -/
def computeUnread (msgs : List Message) : Nat :=
  let sampled := ((msgs.take 100).filter fun m => !m.isRead).length
  if 100 < msgs.length ∧ 0 < sampled then (sampled * msgs.length + 50) / 100
  else sampled

/-- The per-mailbox record `getMailboxHierarchy` stores in `tree`
(lines 114-122 and 143-151). -/
structure MBoxInfo where
  name : String
  messageCount : Nat
  unreadCount : Nat
  path : String
  parent : Option String
  children : List String
  accountName : String
deriving Repr, DecidableEq

/-- The hierarchy result `{tree, roots, total}`; `tree` is the
JavaScript object as an association list in key-insertion order. -/
structure Hierarchy where
  tree : List (String × MBoxInfo)
  roots : List String
  total : Nat
deriving Repr, DecidableEq

/-- State of the first pass (lines 86-135). -/
structure Pass1State where
  tree : List (String × MBoxInfo)
  roots : List String
  childrenMap : List (String × List String)
  total : Nat
deriving Repr, DecidableEq

/-- The info record built for one enumerated mailbox (lines 114-122). -/
def mkInfo (accountName : String) (mb : MailboxRec) : MBoxInfo :=
  { name := mb.name
    messageCount := mb.messages.length
    unreadCount := computeUnread mb.messages
    path :=
      match mb.parent with
      | some p => p ++ "/" ++ mb.name
      | none => mb.name
    parent := mb.parent
    children := []
    accountName := accountName }

/-- First pass (lines 89-135): store each mailbox's info under its name,
count it, and record it as a provisional root (no parent) or in the
parent's side map. -/
def pass1 (accountName : String) : List MailboxRec → Pass1State → Pass1State
  | [], st => st
  | mb :: rest, st =>
    let info := mkInfo accountName mb
    let st2 : Pass1State :=
      match mb.parent with
      | none =>
        { tree := aput mb.name info st.tree
          roots := st.roots ++ [mb.name]
          childrenMap := st.childrenMap
          total := st.total + 1 }
      | some p =>
        { tree := aput mb.name info st.tree
          roots := st.roots
          childrenMap := apush p mb.name st.childrenMap
          total := st.total + 1 }
    pass1 accountName rest st2

/-- The virtual node synthesized for a parent that was never enumerated
(lines 143-151): zero counts, `parent: null`, sorted children. -/
def virtualInfo (accountName p : String) (kids : List String) : MBoxInfo :=
  { name := p
    messageCount := 0
    unreadCount := 0
    path := p
    parent := none
    children := isort strLeB kids
    accountName := accountName }

/-- Second pass (lines 138-154): for each side-map entry, give the
existing node its sorted children, or synthesize a virtual node and add
it to `roots`. -/
def pass2 (accountName : String) :
    List (String × List String) → List (String × MBoxInfo) → List String →
      List (String × MBoxInfo) × List String
  | [], tree, roots => (tree, roots)
  | (p, kids) :: rest, tree, roots =>
    match alo p tree with
    | some info =>
        pass2 accountName rest (aput p { info with children := isort strLeB kids } tree) roots
    | none =>
        pass2 accountName rest (aput p (virtualInfo accountName p kids) tree) (roots ++ [p])

/-- The hierarchy built from one account's flat mailbox enumeration
(lines 86-158): pass 1, pass 2, then `roots.sort()`. -/
def buildHierarchy (accountName : String) (mailboxes : List MailboxRec) : Hierarchy :=
  let st := pass1 accountName mailboxes ⟨[], [], [], 0⟩
  let tr := pass2 accountName st.childrenMap st.tree st.roots
  { tree := tr.1, roots := isort strLeB tr.2, total := st.total }

/-- `getMailboxHierarchy` (lines 50-160): find the account by name —
`{tree: {}, roots: [], total: 0}` when there is none — then build the
hierarchy from its mailboxes. -/
def getMailboxHierarchy (s : MailState) (accountName : String) : Hierarchy :=
  match s.accounts.find? (fun a => a.name == accountName) with
  | none => { tree := [], roots := [], total := 0 }
  | some a => buildHierarchy accountName a.mailboxes

/-- Total children count over the tree. -/
def sumChildren (tree : List (String × MBoxInfo)) : Nat :=
  asum (fun info => info.children.length) tree

/-- The parents that get a virtual node: side-map keys with no
enumerated mailbox of that name in the pass-1 tree. -/
def virtualCount (accountName : String) (mailboxes : List MailboxRec) : Nat :=
  let st := pass1 accountName mailboxes ⟨[], [], [], 0⟩
  st.childrenMap.countP fun e => (alo e.1 st.tree).isNone

theorem nodup_keys_apush (k x : String) (l : List (String × List String))
    (h : (l.map Prod.fst).Nodup) : ((apush k x l).map Prod.fst).Nodup := by
  induction l with
  | nil => simp [apush]
  | cons p r ih =>
    simp only [List.map_cons] at h
    rcases List.nodup_cons.mp h with ⟨hp, hr⟩
    by_cases hpk : p.1 = k
    · simp only [apush, if_pos hpk, List.map_cons]
      exact List.nodup_cons.mpr ⟨hp, hr⟩
    · simp only [apush, if_neg hpk, List.map_cons]
      refine List.nodup_cons.mpr ⟨?_, ih hr⟩
      intro hmem
      rcases (keys_apush k x r p.1).mp hmem with h1 | h1
      · exact hpk h1
      · exact hp h1

theorem pass1_total (an : String) (mbs : List MailboxRec) (st : Pass1State) :
    (pass1 an mbs st).total = st.total + mbs.length := by
  induction mbs generalizing st with
  | nil => simp [pass1]
  | cons mb rest ih =>
    cases hp : mb.parent with
    | none =>
      simp only [pass1, hp]
      rw [ih]
      simp only [List.length_cons]
      omega
    | some p =>
      simp only [pass1, hp]
      rw [ih]
      simp only [List.length_cons]
      omega

theorem pass1_budget (an : String) (mbs : List MailboxRec) (st : Pass1State) :
    (pass1 an mbs st).roots.length + asum List.length (pass1 an mbs st).childrenMap =
      st.roots.length + asum List.length st.childrenMap + mbs.length := by
  induction mbs generalizing st with
  | nil => simp [pass1]
  | cons mb rest ih =>
    cases hp : mb.parent with
    | none =>
      simp only [pass1, hp]
      rw [ih]
      simp only [List.length_append, List.length_cons, List.length_nil]
      omega
    | some p =>
      simp only [pass1, hp]
      rw [ih]
      simp only [asum_apush, List.length_cons]
      omega

theorem pass1_children_nil (an : String) (mbs : List MailboxRec) (st : Pass1State)
    (h : ∀ p ∈ st.tree, p.2.children = []) :
    ∀ p ∈ (pass1 an mbs st).tree, p.2.children = [] := by
  induction mbs generalizing st with
  | nil => exact h
  | cons mb rest ih =>
    cases hp : mb.parent with
    | none =>
      simp only [pass1, hp]
      refine ih _ ?_
      intro p hpmem
      rcases mem_aput _ _ _ _ hpmem with h2 | h2
      · simp [h2, mkInfo]
      · exact h p h2
    | some q =>
      simp only [pass1, hp]
      refine ih _ ?_
      intro p hpmem
      rcases mem_aput _ _ _ _ hpmem with h2 | h2
      · simp [h2, mkInfo]
      · exact h p h2

theorem pass1_nodup_tree (an : String) (mbs : List MailboxRec) (st : Pass1State)
    (h : (st.tree.map Prod.fst).Nodup) :
    ((pass1 an mbs st).tree.map Prod.fst).Nodup := by
  induction mbs generalizing st with
  | nil => exact h
  | cons mb rest ih =>
    cases hp : mb.parent with
    | none => exact ih _ (by simpa [pass1, hp] using nodup_keys_aput _ _ _ h)
    | some q => exact ih _ (by simpa [pass1, hp] using nodup_keys_aput _ _ _ h)

theorem pass1_nodup_cmap (an : String) (mbs : List MailboxRec) (st : Pass1State)
    (h : (st.childrenMap.map Prod.fst).Nodup) :
    ((pass1 an mbs st).childrenMap.map Prod.fst).Nodup := by
  induction mbs generalizing st with
  | nil => exact h
  | cons mb rest ih =>
    cases hp : mb.parent with
    | none => exact ih _ (by simpa [pass1, hp] using h)
    | some q => exact ih _ (by simpa [pass1, hp] using nodup_keys_apush _ _ _ h)

theorem pass1_tree_keys (an : String) (mbs : List MailboxRec) (st : Pass1State)
    (q : String) :
    q ∈ (pass1 an mbs st).tree.map Prod.fst ↔
      q ∈ st.tree.map Prod.fst ∨ q ∈ mbs.map MailboxRec.name := by
  induction mbs generalizing st with
  | nil => simp [pass1]
  | cons mb rest ih =>
    cases hp : mb.parent with
    | none =>
      simp only [pass1, hp, ih, keys_aput, List.map_cons, List.mem_cons]
      tauto
    | some p =>
      simp only [pass1, hp, ih, keys_aput, List.map_cons, List.mem_cons]
      tauto

theorem pass1_cmap_keys (an : String) (mbs : List MailboxRec) (st : Pass1State)
    (q : String) :
    q ∈ (pass1 an mbs st).childrenMap.map Prod.fst ↔
      q ∈ st.childrenMap.map Prod.fst ∨ ∃ mb ∈ mbs, mb.parent = some q := by
  induction mbs generalizing st with
  | nil => simp [pass1]
  | cons mb rest ih =>
    cases hp : mb.parent with
    | none =>
      simp only [pass1, hp, ih, List.mem_cons]
      constructor
      · rintro (h1 | ⟨m, hm, hq⟩)
        · exact Or.inl h1
        · exact Or.inr ⟨m, Or.inr hm, hq⟩
      · rintro (h1 | ⟨m, hm | hm, hq⟩)
        · exact Or.inl h1
        · rw [hm] at hq
          rw [hq] at hp
          cases hp
        · exact Or.inr ⟨m, hm, hq⟩
    | some p =>
      simp only [pass1, hp, ih, keys_apush, List.mem_cons]
      constructor
      · rintro ((h1 | h1) | ⟨m, hm, hq⟩)
        · exact Or.inr ⟨mb, Or.inl rfl, by rw [hp, h1]⟩
        · exact Or.inl h1
        · exact Or.inr ⟨m, Or.inr hm, hq⟩
      · rintro (h1 | ⟨m, hm | hm, hq⟩)
        · exact Or.inl (Or.inr h1)
        · rw [hm] at hq
          rw [hq] at hp
          exact Or.inl (Or.inl (Option.some.inj hp))
        · exact Or.inr ⟨m, hm, hq⟩

theorem pass2_sum (an : String) (es : List (String × List String))
    (tree : List (String × MBoxInfo)) (roots : List String)
    (hkeys : (es.map Prod.fst).Nodup)
    (hnil : ∀ e ∈ es, ∀ w, alo e.1 tree = some w → w.children = []) :
    sumChildren (pass2 an es tree roots).1 =
      sumChildren tree + asum List.length es := by
  induction es generalizing tree roots with
  | nil => simp [pass2, asum]
  | cons e rest ih =>
    rcases e with ⟨p, kids⟩
    simp only [List.map_cons] at hkeys
    rcases List.nodup_cons.mp hkeys with ⟨hpk, hrk⟩
    have hrest_alo : ∀ e2 ∈ rest, ∀ (v : MBoxInfo),
        alo e2.1 (aput p v tree) = alo e2.1 tree := by
      intro e2 he2 v
      refine alo_aput_ne p e2.1 v tree ?_
      intro hq
      exact hpk (hq ▸ List.mem_map_of_mem Prod.fst he2)
    cases halo : alo p tree with
    | some info =>
      have hinfo : info.children = [] := hnil (p, kids) (List.mem_cons_self _ _) info halo
      simp only [pass2, halo]
      rw [ih _ roots hrk ?hnil2]
      case hnil2 =>
        intro e2 he2 w hw
        rw [hrest_alo e2 he2 _] at hw
        exact hnil e2 (List.mem_cons_of_mem _ he2) w hw
      have hsum : sumChildren (aput p { info with children := isort strLeB kids } tree) =
          sumChildren tree + kids.length := by
        have := asum_aput_of_alo_zero (fun i => i.children.length) p
          { info with children := isort strLeB kids } info tree halo (by simp [hinfo])
        simpa [sumChildren, length_isort] using this
      rw [hsum, asum_cons]
      simp only []
      omega
    | none =>
      simp only [pass2, halo]
      rw [ih _ (roots ++ [p]) hrk ?hnil2]
      case hnil2 =>
        intro e2 he2 w hw
        rw [hrest_alo e2 he2 _] at hw
        exact hnil e2 (List.mem_cons_of_mem _ he2) w hw
      have hsum : sumChildren (aput p (virtualInfo an p kids) tree) =
          sumChildren tree + kids.length := by
        have := asum_aput_of_alo_none (fun i => i.children.length) p
          (virtualInfo an p kids) tree halo
        simpa [sumChildren, virtualInfo, length_isort] using this
      rw [hsum, asum_cons]
      simp only []
      omega

theorem pass2_roots_length (an : String) (es : List (String × List String))
    (tree : List (String × MBoxInfo)) (roots : List String)
    (hkeys : (es.map Prod.fst).Nodup) :
    (pass2 an es tree roots).2.length =
      roots.length + es.countP (fun e => (alo e.1 tree).isNone) := by
  induction es generalizing tree roots with
  | nil => simp [pass2]
  | cons e rest ih =>
    rcases e with ⟨p, kids⟩
    simp only [List.map_cons] at hkeys
    rcases List.nodup_cons.mp hkeys with ⟨hpk, hrk⟩
    have hrest_cnt : ∀ (v : MBoxInfo),
        (rest.countP fun e2 => (alo e2.1 (aput p v tree)).isNone) =
          rest.countP fun e2 => (alo e2.1 tree).isNone := by
      intro v
      apply List.countP_congr
      intro e2 he2
      rw [alo_aput_ne p e2.1 v tree
        (fun hq => hpk (hq ▸ List.mem_map_of_mem Prod.fst he2))]
    cases halo : alo p tree with
    | some info =>
      simp only [pass2, halo]
      rw [ih _ roots hrk, hrest_cnt]
      rw [List.countP_cons]
      simp [halo]
    | none =>
      simp only [pass2, halo]
      rw [ih _ (roots ++ [p]) hrk, hrest_cnt]
      rw [List.countP_cons]
      simp [halo]
      omega

/-- Sortedness predicate used for C3: lexicographically non-decreasing. -/
def lexSorted (l : List String) : Prop := l.Pairwise fun a b => strLeB a b = true

theorem lexSorted_isort (l : List String) : lexSorted (isort strLeB l) :=
  pairwise_isort strLeB (fun a b => charListLe_total a.data b.data)
    (fun a b c => charListLe_trans a.data b.data c.data) l

theorem pass2_sorted_children (an : String) (es : List (String × List String))
    (tree : List (String × MBoxInfo)) (roots : List String)
    (h : ∀ p ∈ tree, lexSorted p.2.children) :
    ∀ p ∈ (pass2 an es tree roots).1, lexSorted p.2.children := by
  induction es generalizing tree roots with
  | nil => exact h
  | cons e rest ih =>
    rcases e with ⟨p, kids⟩
    cases halo : alo p tree with
    | some info =>
      simp only [pass2, halo]
      refine ih _ roots ?_
      intro q hq
      rcases mem_aput _ _ _ _ hq with h2 | h2
      · rw [h2]
        exact lexSorted_isort kids
      · exact h q h2
    | none =>
      simp only [pass2, halo]
      refine ih _ (roots ++ [p]) ?_
      intro q hq
      rcases mem_aput _ _ _ _ hq with h2 | h2
      · rw [h2]
        exact lexSorted_isort kids
      · exact h q h2

theorem pass2_presence (an : String) (es : List (String × List String))
    (tree : List (String × MBoxInfo)) (roots : List String) (q : String)
    (h : (alo q tree).isSome = true) :
    (alo q (pass2 an es tree roots).1).isSome = true := by
  induction es generalizing tree roots with
  | nil => exact h
  | cons e rest ih =>
    rcases e with ⟨p, kids⟩
    have hput : ∀ (v : MBoxInfo), (alo q (aput p v tree)).isSome = true := by
      intro v
      by_cases hq : q = p
      · rw [hq, alo_aput_self]
        rfl
      · rw [alo_aput_ne p q v tree hq]
        exact h
    cases halo : alo p tree with
    | some info =>
      simp only [pass2, halo]
      exact ih _ roots (hput _)
    | none =>
      simp only [pass2, halo]
      exact ih _ (roots ++ [p]) (hput _)

theorem pass2_roots_mono (an : String) (es : List (String × List String))
    (tree : List (String × MBoxInfo)) (roots : List String) (x : String)
    (h : x ∈ roots) : x ∈ (pass2 an es tree roots).2 := by
  induction es generalizing tree roots with
  | nil => exact h
  | cons e rest ih =>
    rcases e with ⟨p, kids⟩
    cases halo : alo p tree with
    | some info =>
      simp only [pass2, halo]
      exact ih _ roots h
    | none =>
      simp only [pass2, halo]
      exact ih _ (roots ++ [p]) (List.mem_append_left _ h)

theorem pass2_key_present (an : String) (es : List (String × List String))
    (tree : List (String × MBoxInfo)) (roots : List String) (p : String)
    (kids : List String) (hmem : (p, kids) ∈ es) :
    (alo p (pass2 an es tree roots).1).isSome = true := by
  induction es generalizing tree roots with
  | nil => cases hmem
  | cons e rest ih =>
    rcases e with ⟨p2, kids2⟩
    rcases List.mem_cons.mp hmem with h2 | h2
    · rcases Prod.mk.injEq .. ▸ h2 with ⟨hp, _⟩
      cases halo : alo p2 tree with
      | some info =>
        simp only [pass2, halo]
        cases hp
        exact pass2_presence an rest _ roots p (by rw [alo_aput_self]; rfl)
      | none =>
        simp only [pass2, halo]
        cases hp
        exact pass2_presence an rest _ (roots ++ [p]) p (by rw [alo_aput_self]; rfl)
    · cases halo : alo p2 tree with
      | some info =>
        simp only [pass2, halo]
        exact ih _ roots h2
      | none =>
        simp only [pass2, halo]
        exact ih _ (roots ++ [p2]) h2

theorem pass2_stable_off_keys (an : String) (es : List (String × List String))
    (tree : List (String × MBoxInfo)) (roots : List String) (q : String)
    (h : q ∉ es.map Prod.fst) :
    alo q (pass2 an es tree roots).1 = alo q tree := by
  induction es generalizing tree roots with
  | nil => rfl
  | cons e rest ih =>
    rcases e with ⟨p, kids⟩
    simp only [List.map_cons, List.mem_cons, not_or] at h
    rcases h with ⟨hqp, hqrest⟩
    cases halo : alo p tree with
    | some info =>
      simp only [pass2, halo]
      rw [ih _ roots hqrest, alo_aput_ne p q _ tree hqp]
    | none =>
      simp only [pass2, halo]
      rw [ih _ (roots ++ [p]) hqrest, alo_aput_ne p q _ tree hqp]

theorem pass2_virtual (an : String) (es : List (String × List String))
    (tree : List (String × MBoxInfo)) (roots : List String) (p : String)
    (kids : List String) (hkeys : (es.map Prod.fst).Nodup)
    (hmem : (p, kids) ∈ es) (hnone : alo p tree = none) :
    alo p (pass2 an es tree roots).1 = some (virtualInfo an p kids) ∧
      p ∈ (pass2 an es tree roots).2 := by
  induction es generalizing tree roots with
  | nil => cases hmem
  | cons e rest ih =>
    rcases e with ⟨p2, kids2⟩
    simp only [List.map_cons] at hkeys
    rcases List.nodup_cons.mp hkeys with ⟨hpk, hrk⟩
    rcases List.mem_cons.mp hmem with h2 | h2
    · rcases Prod.mk.injEq .. ▸ h2 with ⟨hp, hk⟩
      cases hp
      cases hk
      simp only [pass2, hnone]
      constructor
      · rw [pass2_stable_off_keys an rest _ (roots ++ [p]) p
          (by simpa using hpk), alo_aput_self]
      · exact pass2_roots_mono an rest _ (roots ++ [p]) p
          (List.mem_append_right _ (List.mem_singleton_self p))
    · have hp2p : p ≠ p2 := by
        intro hq
        exact hpk (hq ▸ List.mem_map_of_mem Prod.fst h2)
      cases halo : alo p2 tree with
      | some info =>
        simp only [pass2, halo]
        exact ih _ roots hrk h2 (by rw [alo_aput_ne p2 p _ tree hp2p]; exact hnone)
      | none =>
        simp only [pass2, halo]
        exact ih _ (roots ++ [p2]) hrk h2 (by rw [alo_aput_ne p2 p _ tree hp2p]; exact hnone)

theorem alo_mem (k : String) (v : α) (l : List (String × α))
    (h : alo k l = some v) : (k, v) ∈ l := by
  induction l with
  | nil => cases h
  | cons p r ih =>
    rcases p with ⟨pk, pv⟩
    by_cases hp : pk = k
    · simp only [alo, if_pos hp] at h
      subst hp
      cases h
      exact List.mem_cons_self _ _
    · simp only [alo, if_neg hp] at h
      exact List.mem_cons_of_mem _ (ih h)

theorem asum_eq_zero (g : α → Nat) (l : List (String × α))
    (h : ∀ p ∈ l, g p.2 = 0) : asum g l = 0 := by
  induction l with
  | nil => rfl
  | cons p r ih =>
    rw [asum_cons, h p (List.mem_cons_self _ _), ih fun q hq => h q (List.mem_cons_of_mem _ hq)]

/-- C3 (amended). For every flat mailbox input the hierarchy has
lexicographically sorted `roots` and sorted `children` everywhere, and
the multiset union of `roots` and all `children` has cardinality
`total` **plus the number of synthesized virtual nodes** — the code
increments `totalCount` only for enumerated mailboxes (line 125), never
for virtual nodes (lines 143-152), so equality with `total` alone fails
exactly when virtual nodes exist. -/
theorem buildHierarchy_sorted_and_count (an : String) (mbs : List MailboxRec) :
    lexSorted (buildHierarchy an mbs).roots ∧
    (∀ p ∈ (buildHierarchy an mbs).tree, lexSorted p.2.children) ∧
    (buildHierarchy an mbs).roots.length + sumChildren (buildHierarchy an mbs).tree =
      (buildHierarchy an mbs).total + virtualCount an mbs := by
  have hnil : ∀ p ∈ (pass1 an mbs ⟨[], [], [], 0⟩).tree, p.2.children = [] :=
    pass1_children_nil an mbs _ (by intro p hp; cases hp)
  have hcnodup : ((pass1 an mbs ⟨[], [], [], 0⟩).childrenMap.map Prod.fst).Nodup :=
    pass1_nodup_cmap an mbs _ (by simp)
  have hnil2 : ∀ e ∈ (pass1 an mbs ⟨[], [], [], 0⟩).childrenMap, ∀ w,
      alo e.1 (pass1 an mbs ⟨[], [], [], 0⟩).tree = some w → w.children = [] := by
    intro e _ w hw
    exact hnil (e.1, w) (alo_mem _ _ _ hw)
  refine ⟨?_, ?_, ?_⟩
  · exact lexSorted_isort _
  · refine pass2_sorted_children an _ _ _ ?_
    intro p hp
    rw [hnil p hp]
    exact List.Pairwise.nil
  · have hsum := pass2_sum an (pass1 an mbs ⟨[], [], [], 0⟩).childrenMap
      (pass1 an mbs ⟨[], [], [], 0⟩).tree (pass1 an mbs ⟨[], [], [], 0⟩).roots
      hcnodup hnil2
    have hroots := pass2_roots_length an (pass1 an mbs ⟨[], [], [], 0⟩).childrenMap
      (pass1 an mbs ⟨[], [], [], 0⟩).tree (pass1 an mbs ⟨[], [], [], 0⟩).roots hcnodup
    have hzero : sumChildren (pass1 an mbs ⟨[], [], [], 0⟩).tree = 0 :=
      asum_eq_zero _ _ fun p hp => by rw [hnil p hp]; rfl
    have hbudget := pass1_budget an mbs ⟨[], [], [], 0⟩
    have htotal := pass1_total an mbs ⟨[], [], [], 0⟩
    simp only [buildHierarchy, length_isort, hroots, hsum, hzero, htotal, virtualCount]
    have hb2 : (pass1 an mbs ⟨[], [], [], 0⟩).roots.length +
        asum List.length (pass1 an mbs ⟨[], [], [], 0⟩).childrenMap = mbs.length := by
      simpa [asum] using hbudget
    omega

/-- The one-mailbox input whose parent is never enumerated. -/
def c3Input : List MailboxRec := [{ name := "Work", parent := some "INBOX", messages := [] }]

/-- C3 counterexample. On an input whose parent reference forces a
virtual node, the union of `roots` and all `children` has cardinality 2
while `total` is 1: the claimed equality with `total` fails. -/
theorem buildHierarchy_total_misses_virtual :
    (buildHierarchy "acc" c3Input).roots = ["INBOX"] ∧
    sumChildren (buildHierarchy "acc" c3Input).tree = 1 ∧
    (buildHierarchy "acc" c3Input).total = 1 ∧
    (buildHierarchy "acc" c3Input).roots.length +
        sumChildren (buildHierarchy "acc" c3Input).tree = 2 ∧
    (2 : Nat) ≠ 1 := by
  refine ⟨rfl, rfl, rfl, rfl, by decide⟩

/-- C5. Every name referenced as a parent has a node in the final tree;
when no enumerated mailbox carries that name, the node is the
synthesized virtual one — zero message and unread counts, `parent:
null` — and the name is in `roots`. -/
theorem buildHierarchy_parents_resolved (an : String) (mbs : List MailboxRec)
    (mb : MailboxRec) (p : String) (hmb : mb ∈ mbs) (hp : mb.parent = some p) :
    (alo p (buildHierarchy an mbs).tree).isSome = true ∧
    (p ∉ mbs.map MailboxRec.name →
      ∃ v, alo p (buildHierarchy an mbs).tree = some v ∧
        v.messageCount = 0 ∧ v.unreadCount = 0 ∧ v.parent = none ∧
        p ∈ (buildHierarchy an mbs).roots) := by
  have hkey : p ∈ (pass1 an mbs ⟨[], [], [], 0⟩).childrenMap.map Prod.fst := by
    rw [pass1_cmap_keys]
    exact Or.inr ⟨mb, hmb, hp⟩
  rcases List.mem_map.mp hkey with ⟨e, he, hep⟩
  have hmem : (p, e.2) ∈ (pass1 an mbs ⟨[], [], [], 0⟩).childrenMap := by
    rw [← hep]
    exact he
  have hcnodup : ((pass1 an mbs ⟨[], [], [], 0⟩).childrenMap.map Prod.fst).Nodup :=
    pass1_nodup_cmap an mbs _ (by simp)
  constructor
  · exact pass2_key_present an _ _ _ p e.2 hmem
  · intro hnames
    have hnone : alo p (pass1 an mbs ⟨[], [], [], 0⟩).tree = none := by
      rw [alo_eq_none_iff]
      rw [pass1_tree_keys]
      rintro (h1 | h1)
      · cases h1
      · exact hnames h1
    rcases pass2_virtual an _ _ _ p e.2 hcnodup hmem hnone with ⟨hv, hr⟩
    refine ⟨virtualInfo an p e.2, hv, rfl, rfl, rfl, ?_⟩
    simp only [buildHierarchy, mem_isort]
    exact hr

/-- Witness for `buildHierarchy_parents_resolved` on the input whose
`Work` mailbox references the never-enumerated `INBOX`. -/
theorem buildHierarchy_parents_resolved_witness :
    ({ name := "Work", parent := some "INBOX", messages := [] } : MailboxRec) ∈ c3Input ∧
    ({ name := "Work", parent := some "INBOX", messages := [] } : MailboxRec).parent =
      some "INBOX" ∧
    ((alo "INBOX" (buildHierarchy "acc" c3Input).tree).isSome = true ∧
      ("INBOX" ∉ c3Input.map MailboxRec.name →
        ∃ v, alo "INBOX" (buildHierarchy "acc" c3Input).tree = some v ∧
          v.messageCount = 0 ∧ v.unreadCount = 0 ∧ v.parent = none ∧
          "INBOX" ∈ (buildHierarchy "acc" c3Input).roots)) :=
  ⟨by decide, rfl,
    buildHierarchy_parents_resolved "acc" c3Input
      { name := "Work", parent := some "INBOX", messages := [] } "INBOX"
      (by decide) rfl⟩

/-- C9. The unread-count policy of `getMailboxHierarchy` (lines
97-112): for a mailbox with at most 100 messages the reported
`unreadCount` is the exact unread count; above 100 only the first 100
messages are sampled and the report is
`Math.round(sampled * messageCount / 100)`, written in natural-number
arithmetic as `(sampled * messageCount + 50) / 100` (the code skips the
rounding when the sample holds no unread message, but `round(0) = 0`,
so the formula holds there too).  `mkInfo` is the record the hierarchy
stores, so the reported field equals `computeUnread`. -/
theorem computeUnread_policy (an : String) (mb : MailboxRec) (msgs : List Message) :
    (mkInfo an mb).unreadCount = computeUnread mb.messages ∧
    (msgs.length ≤ 100 →
      computeUnread msgs = (msgs.filter fun m => !m.isRead).length) ∧
    (100 < msgs.length →
      computeUnread msgs =
        (((msgs.take 100).filter fun m => !m.isRead).length * msgs.length + 50) / 100) := by
  refine ⟨rfl, ?_, ?_⟩
  · intro h
    have htake : msgs.take 100 = msgs := List.take_of_length_le h
    have hcond : ¬ (100 < msgs.length ∧
        0 < (msgs.filter fun m => !m.isRead).length) := by
      rintro ⟨h1, _⟩
      omega
    simp only [computeUnread, htake, if_neg hcond]
  · intro h
    by_cases hs : 0 < ((msgs.take 100).filter fun m => !m.isRead).length
    · simp only [computeUnread, if_pos (And.intro h hs)]
    · have hz : ((msgs.take 100).filter fun m => !m.isRead).length = 0 := by omega
      have hcond : ¬ (100 < msgs.length ∧
          0 < ((msgs.take 100).filter fun m => !m.isRead).length) := by
        rintro ⟨_, h2⟩
        omega
      simp only [computeUnread, if_neg hcond, hz]
      simp

/-- A message that is unread. -/
def unreadMsg : Message :=
  { numId := 1, msgId := "<u@x>", subject := "s", sender := "p@x", recipients := []
    dateSent := 0, dateReceived := 0, content := "", isRead := false, isFlagged := false }

/-- Witness for `computeUnread_policy`: a 2-message mailbox reports the
exact count, a 150-message mailbox reports the extrapolated count. -/
theorem computeUnread_policy_witness :
    ((mkInfo "a" { name := "M", parent := none, messages := [unreadMsg] }).unreadCount =
        computeUnread [unreadMsg] ∧
      ([unreadMsg, unreadMsg] : List Message).length ≤ 100 ∧
      computeUnread [unreadMsg, unreadMsg] =
        (([unreadMsg, unreadMsg] : List Message).filter fun m => !m.isRead).length) ∧
    (100 < (List.replicate 150 unreadMsg).length ∧
      computeUnread (List.replicate 150 unreadMsg) =
        ((((List.replicate 150 unreadMsg).take 100).filter fun m => !m.isRead).length *
            (List.replicate 150 unreadMsg).length + 50) / 100) :=
  ⟨⟨(computeUnread_policy "a" { name := "M", parent := none, messages := [unreadMsg] }
        [unreadMsg]).1,
    by decide,
    (computeUnread_policy "a" { name := "M", parent := none, messages := [unreadMsg] }
        [unreadMsg, unreadMsg]).2.1 (by decide)⟩,
   by simp,
   (computeUnread_policy "a" { name := "M", parent := none, messages := []}
        (List.replicate 150 unreadMsg)).2.2 (by simp)⟩

/-! ## Message retrieval (mail-messages module, src/unnamed/part_002)

`getLatestMails`: find the account (empty list when there is none),
order its mailboxes priority-first, scan the first 10, take the last 50
messages of each newest-first, sort everything newest-first and return
the first `limit`. -/

/-- The object `createMessageJXA` builds (part_002 lines 13-37): the
transient numeric id (no Message-ID field), full recipients, content
capped at `contentLimit`. -/
structure MsgOut where
  id : Nat
  subject : String
  sender : String
  recipients : List String
  dateSent : Nat
  dateReceived : Nat
  content : String
  isRead : Bool
  isFlagged : Bool
  mailbox : String
  accountName : String
deriving Repr, DecidableEq

/-- `createMessageJXA(true, 500)` applied to one message of a mailbox. -/
def mkLatestOut (mailboxName accountName : String) (m : Message) : MsgOut :=
  { id := m.numId
    subject := orDefault m.subject "[No Subject]"
    sender := orDefault m.sender "[Unknown]"
    recipients := m.recipients
    dateSent := m.dateSent
    dateReceived := m.dateReceived
    content := m.content.take 500
    isRead := m.isRead
    isFlagged := m.isFlagged
    mailbox := mailboxName
    accountName := accountName }

/-- `getLatestMails` priority test (part_002 lines 107-121): upper-cased
name equal to or containing an upper-cased default priority name. -/
def isLatestPriority (name : String) : Bool :=
  ["INBOX", "Sent Messages", "Sent", "Drafts"].any fun p =>
    strUpper name == strUpper p || strContains (strUpper name) (strUpper p)

/-- Newest-first comparison for the final sort of `getLatestMails`. -/
def newerFirstMsg (a b : MsgOut) : Bool := decide (b.dateReceived ≤ a.dateReceived)

/-- `getLatestMails` (part_002 lines 81-153). -/
def getLatestMails (s : MailState) (accountName : String) (limit : Nat) :
    List MsgOut :=
  match s.accounts.find? (fun a => a.name == accountName) with
  | none => []
  | some acct =>
    let pri := acct.mailboxes.filter fun mb => isLatestPriority mb.name
    let oth := acct.mailboxes.filter fun mb => !isLatestPriority mb.name
    let ordered := (pri ++ oth).take 10
    let collected := ordered.flatMap fun mb =>
      (mb.messages.reverse.take (min 50 mb.messages.length)).map
        (mkLatestOut mb.name acct.name)
    (isort newerFirstMsg collected).take limit

/-- C10. An account name matching no account is reported as an empty
result, not as a raised host error: `getMailboxHierarchy` returns
`{tree: {}, roots: [], total: 0}`, `getLatestMails` returns `[]`, and
`searchInMailbox` with an unresolvable mailbox returns `[]` — each
model returns a plain value on this path (no error channel is
involved). -/
theorem notFound_reported_as_empty (s : MailState) (accountName mailboxName
    searchTerm : String) (searchAccount : Option String) (limit messagesPerSearch : Nat)
    (hacc : ∀ a ∈ s.accounts, a.name ≠ accountName)
    (hmbx : resolveSearchMailbox s mailboxName searchAccount = none) :
    getMailboxHierarchy s accountName = { tree := [], roots := [], total := 0 } ∧
    getLatestMails s accountName limit = [] ∧
    searchInMailbox s mailboxName searchTerm searchAccount limit messagesPerSearch = [] := by
  have hfind : s.accounts.find? (fun a => a.name == accountName) = none := by
    rw [List.find?_eq_none]
    intro a ha
    simpa using hacc a ha
  refine ⟨?_, ?_, ?_⟩
  · simp [getMailboxHierarchy, hfind]
  · simp [getLatestMails, hfind]
  · simp [searchInMailbox, hmbx]

/-- Witness for `notFound_reported_as_empty` on an empty Mail state. -/
theorem notFound_reported_as_empty_witness :
    (∀ a ∈ (⟨[], []⟩ : MailState).accounts, a.name ≠ "Nope") ∧
    resolveSearchMailbox ⟨[], []⟩ "M" none = none ∧
    (getMailboxHierarchy ⟨[], []⟩ "Nope" = { tree := [], roots := [], total := 0 } ∧
      getLatestMails ⟨[], []⟩ "Nope" 10 = [] ∧
      searchInMailbox ⟨[], []⟩ "M" "x" none 20 50 = []) :=
  ⟨fun a ha => absurd ha (List.not_mem_nil a), rfl,
    notFound_reported_as_empty ⟨[], []⟩ "Nope" "M" "x" none 20 50
      (fun a ha => absurd ha (List.not_mem_nil a)) rfl⟩
